import Mathlib

/-!
Verification of sim_energy_system_cap.py over a shallow embedding in exact reals.

The script simulates a solar cell charging a capacitor with equivalent series
resistance that drives an intermittent load, and logs a (time, voltage) trace.
Floating point arithmetic is modelled by real arithmetic and math.sqrt by
Real.sqrt.  Operations that are partial in Python (float division by zero,
math domain errors) are total in the real model; where a claim is about such a
failure mode, a checked Option-valued variant mirrors the partiality.

Each log entry additionally records, in the field q, the charge value that was
passed to calc_node_voltage when the logged voltage was produced; the CSV trace
is the projection onto the (t, v) pairs.  The while loop of the script is
embedded as a fuel-indexed iteration loopN; a stability lemma shows that once
the loop guard has failed the result no longer depends on the fuel, and the
fuel simFuel is large enough whenever the step size is positive.
-/

namespace EnergySim

noncomputable section

/-- Constant solar irradiance, line 30 of the script. -/
def irrad : ℝ := 1336.1

/-- Function calc_solar_current, lines 67 and 68. -/
def calc_solar_current (irr_w_m2 sa_m2 eff voc : ℝ) : ℝ :=
  (irr_w_m2 * sa_m2 * eff) / voc

/-- Function calc_node_discr, lines 70 and 71. -/
def calc_node_discr (q_c c_f i_a esr_ohm power_w : ℝ) : ℝ :=
  (q_c / c_f + i_a * esr_ohm) ^ 2 - 4 * power_w * esr_ohm

/-- Function calc_node_voltage, lines 73 and 74. -/
def calc_node_voltage (disc q_c c_f i_a esr_ohm : ℝ) : ℝ :=
  (q_c / c_f + i_a * esr_ohm + Real.sqrt disc) / 2

/-- The ten positional parameters of the script, in source order. -/
@[ext]
structure Params where
  sa_m2 : ℝ
  eff : ℝ
  voc : ℝ
  c_f : ℝ
  r_esr : ℝ
  q0_c : ℝ
  p_on_w : ℝ
  v_thresh : ℝ
  dt_s : ℝ
  dur_s : ℝ

/-- Short circuit current isc_a, line 77. -/
def isc (P : Params) : ℝ := calc_solar_current irrad P.sa_m2 P.eff P.voc

/-- One log entry: the (t_s, node_v) pair the script appends, plus the ghost
field q recording the charge value passed to calc_node_voltage for it. -/
structure Entry where
  t : ℝ
  v : ℝ
  q : ℝ

instance : Inhabited Entry := ⟨⟨0, 0, 0⟩⟩

/-- Mutable script state during the simulation loop: charge qt_c, source
current i1_a, load mode power p_mode_w, node voltage node_v, time t_s, and
the log, stored most recent entry first. -/
structure State where
  qt_c : ℝ
  i1_a : ℝ
  p_mode_w : ℝ
  node_v : ℝ
  t_s : ℝ
  log : List Entry

/-- Charge floor, lines 109 and 110. -/
def clampCharge (q : ℝ) : ℝ := if q < 0 then 0 else q

/-- Charge update of one loop iteration, lines 106 to 110: the load current
i3_a is p_mode_w divided by the previous voltage. -/
def chargeUpdate (P : Params) (s : State) : ℝ :=
  clampCharge (s.qt_c + (s.i1_a - s.p_mode_w / s.node_v) * P.dt_s)

/-- Source current recompute rule, line 113. -/
def i1Rule (P : Params) (v : ℝ) : ℝ :=
  if 0 ≤ v ∧ v < P.voc then isc P else 0

/-- Power on rule, lines 116 and 117. -/
def powerOn (P : Params) (p v : ℝ) : ℝ :=
  if p = 0 ∧ v ≥ P.voc then P.p_on_w else p

/-- Infeasible load fallback, lines 86 to 88 and 121 to 123: if the
discriminant is negative the load power is forced to zero. -/
def fallbackPower (q_c c_f i_a esr_ohm power_w : ℝ) : ℝ :=
  if calc_node_discr q_c c_f i_a esr_ohm power_w < 0 then 0 else power_w

/-- The discriminant actually passed to calc_node_voltage: the one recomputed
after the fallback, lines 84 to 91 and 119 to 125. -/
def usedDiscr (q_c c_f i_a esr_ohm power_w : ℝ) : ℝ :=
  calc_node_discr q_c c_f i_a esr_ohm (fallbackPower q_c c_f i_a esr_ohm power_w)

/-- Source clamp rule, lines 95, 96, 127 and 128. -/
def sourceClamp (P : Params) (v i : ℝ) : ℝ :=
  if P.voc ≤ v ∧ i ≠ 0 then 0 else i

/-- Threshold rule, lines 99, 100, 130 and 131. -/
def threshRule (P : Params) (v p : ℝ) : ℝ :=
  if v < P.v_thresh then 0 else p

/-- Initial node voltage, lines 84 to 91. -/
def initVolt (P : Params) : ℝ :=
  calc_node_voltage (usedDiscr P.q0_c P.c_f (isc P) P.r_esr P.p_on_w)
    P.q0_c P.c_f (isc P) P.r_esr

/-- Initialization, lines 77 to 100: state just before the while loop. -/
def initState (P : Params) : State where
  qt_c := P.q0_c
  i1_a := sourceClamp P (initVolt P) (isc P)
  p_mode_w := threshRule P (initVolt P)
    (fallbackPower P.q0_c P.c_f (isc P) P.r_esr P.p_on_w)
  node_v := initVolt P
  t_s := 0
  log := [⟨0, initVolt P, P.q0_c⟩]

/-- Node voltage computed by one loop iteration, lines 119 to 125. -/
def stepVolt (P : Params) (s : State) : ℝ :=
  calc_node_voltage
    (usedDiscr (chargeUpdate P s) P.c_f (i1Rule P s.node_v) P.r_esr
      (powerOn P s.p_mode_w s.node_v))
    (chargeUpdate P s) P.c_f (i1Rule P s.node_v) P.r_esr

/-- One iteration of the while loop body, lines 105 to 134. -/
def stepBody (P : Params) (s : State) : State where
  qt_c := chargeUpdate P s
  i1_a := sourceClamp P (stepVolt P s) (i1Rule P s.node_v)
  p_mode_w := threshRule P (stepVolt P s)
    (fallbackPower (chargeUpdate P s) P.c_f (i1Rule P s.node_v) P.r_esr
      (powerOn P s.p_mode_w s.node_v))
  node_v := stepVolt P s
  t_s := s.t_s + P.dt_s
  log := ⟨s.t_s, stepVolt P s, chargeUpdate P s⟩ :: s.log

/-- Time field of the most recent log entry, the loop guard value of line 103. -/
def lastTime (s : State) : ℝ := s.log.headI.t

/-- Fuel-indexed while loop of line 103: run at most n iterations, stopping as
soon as the guard fails. -/
def loopN : ℕ → Params → State → State
  | 0, _, s => s
  | Nat.succ n, P, s => if lastTime s < P.dur_s then loopN n P (stepBody P s) else s

/-- Number of uniform-phase loop iterations for positive step and duration. -/
def stepsOf (P : Params) : ℕ := (⌈P.dur_s / P.dt_s⌉).toNat

/-- Fuel that suffices to drive the loop to completion when 0 < dt_s. -/
def simFuel (P : Params) : ℕ := stepsOf P + 2

/-- The finished trace, oldest sample first, projected to (time, voltage). -/
def traceOf (P : Params) : List (ℝ × ℝ) :=
  ((loopN (simFuel P) P (initState P)).log.reverse).map (fun e => (e.t, e.v))

/-- Pure time skeleton of the loop: it evolves the time variable and the list
of logged times exactly as the loop does, ignoring the physics. -/
def timeRun : ℕ → ℝ → ℝ → ℝ → List ℝ → List ℝ
  | 0, _, _, _, ts => ts
  | Nat.succ n, dt, dur, t, ts =>
      if ts.headI < dur then timeRun n dt dur (t + dt) (t :: ts) else ts

/-- Checked loop step: in Python the division p_mode_w / node_v of line 106
raises ZeroDivisionError exactly when node_v is zero, killing the process. -/
def stepChecked (P : Params) (s : State) : Option State :=
  if s.node_v = 0 then none else some (stepBody P s)

/-- Checked solar current: in Python the division of line 68 raises
ZeroDivisionError exactly when voc is zero. -/
def calc_solar_current_checked (irr_w_m2 sa_m2 eff voc : ℝ) : Option ℝ :=
  if voc = 0 then none else some (calc_solar_current irr_w_m2 sa_m2 eff voc)

/-- Checked initialization: line 77 runs calc_solar_current before any sample
is produced, so a zero voc aborts the whole run with no output. -/
def initStateChecked (P : Params) : Option State :=
  (calc_solar_current_checked irrad P.sa_m2 P.eff P.voc).map (fun _ => initState P)

/-- Concrete parameters: dt_s = 1, dur_s = 10, inert physics. -/
def Pbase : Params := ⟨0, 1, 1, 1, 1, 0, 0, 0, 1, 10⟩

/-- Concrete parameters with dt_s = 2, dur_s = 1, a non-integer ratio, on a
unit-charge idle circuit (zero area, zero load power, q0_c = c_f = 1): every
node voltage of the run is 1, so each line 106 division of the script has
divisor 1 and the program runs to completion. -/
def PfloorCx : Params := ⟨0, 1, 1, 1, 1, 1, 0, 0, 2, 1⟩

/-- Concrete parameters with dt_s = 1, dur_s = 1, same unit-charge idle
circuit: the script completes the run with every node voltage equal to 1. -/
def PdupCx : Params := ⟨0, 1, 1, 1, 1, 1, 0, 0, 1, 1⟩

/-- Concrete parameters with dt_s = 1, dur_s = 10, same unit-charge idle
circuit: the script completes the run with every node voltage equal to 1. -/
def Prun : Params := ⟨0, 1, 1, 1, 1, 1, 0, 0, 1, 10⟩

/-- Concrete parameters with nonnegative initial charge. -/
def PqPos : Params := ⟨0, 1, 1, 1, 1, 1, 0, 0, 1, 1⟩

/-- Concrete parameters with negative initial charge. -/
def PqNeg : Params := ⟨0, 1, 1, 1, 1, -1, 0, 0, 1, 1⟩

/-- Concrete parameters with zero area whose post-cutoff voltage oscillates:
voc = 1.8 sits between the loaded voltage 1.5 and the idle voltage 2. -/
def Posc : Params := ⟨0, 1, 1.8, 1, 1, 2, 3/4, 1.6, 1, 10⟩

/-- Concrete parameters for the discharge-step witness. -/
def Pdis : Params := ⟨0, 1, 5, 1, 1, 2, 3/4, 0, 1/10, 1⟩

/-- Concrete mid-run state for the discharge-step witness: charge 2, load on
at 3/4 W, voltage 3/2 consistent with the quadratic solve. -/
def Sdis : State := ⟨2, 0, 3/4, 3/2, 0, []⟩

/-- Concrete parameters for the idle-phase witness. -/
def Pconst : Params := ⟨0, 1, 2, 1, 1, 1, 1, 0, 1, 1⟩

/-- Concrete post-cutoff state for the idle-phase witness. -/
def Sconst : State := ⟨1, 0, 0, 1, 0, []⟩

/-- Concrete parameters reaching a zero node voltage at initialization. -/
def Pzero : Params := ⟨0, 1, 1, 1, 1, 0, 1, 1, 1, 1⟩

/-- Concrete parameters with zero duration. -/
def Pdur0 : Params := ⟨0, 1, 1, 1, 1, 0, 0, 0, 1, 0⟩

/-- Second copy of the zero-duration parameters, field by field equal. -/
def Pdur0b : Params := ⟨0, 1, 1, 1, 1, 0, 0, 0, 1, 0⟩

/-- Concrete parameters with zero open circuit voltage. -/
def Pvoc0 : Params := ⟨1, 1, 0, 1, 1, 1, 1, 1, 1, 1⟩

/-- Claim C1: whenever calc_node_voltage is invoked, at initialization and at
every loop iteration, the discriminant passed to it is the one recomputed
after the infeasible-load fallback, and that discriminant is nonnegative, so
the square root never receives a negative argument. -/
theorem claim1_discr_nonneg :
    (∀ q_c c_f i_a esr_ohm power_w : ℝ, 0 ≤ usedDiscr q_c c_f i_a esr_ohm power_w)
    ∧ (∀ P : Params, (initState P).node_v
        = calc_node_voltage (usedDiscr P.q0_c P.c_f (isc P) P.r_esr P.p_on_w)
            P.q0_c P.c_f (isc P) P.r_esr)
    ∧ (∀ (P : Params) (s : State), (stepBody P s).node_v
        = calc_node_voltage
            (usedDiscr (chargeUpdate P s) P.c_f (i1Rule P s.node_v) P.r_esr
              (powerOn P s.p_mode_w s.node_v))
            (chargeUpdate P s) P.c_f (i1Rule P s.node_v) P.r_esr) := by
  refine ⟨?_, fun P => rfl, fun P s => rfl⟩
  intro q c i r p
  unfold usedDiscr fallbackPower
  by_cases h : calc_node_discr q c i r p < 0
  · rw [if_pos h]
    unfold calc_node_discr
    nlinarith [sq_nonneg (q / c + i * r)]
  · rw [if_neg h]
    linarith [not_lt.mp h]

/-- Claim C5: at every loop iteration the source current is recomputed to
isc_a exactly when the previous voltage v satisfies 0 ≤ v < voc and to 0
otherwise, and whenever the source clamp forces a nonzero source current to
zero, the newly computed voltage of that step is at least voc. -/
theorem claim5_source_rules (P : Params) :
    (∀ v : ℝ, (0 ≤ v ∧ v < P.voc → i1Rule P v = isc P)
      ∧ (¬(0 ≤ v ∧ v < P.voc) → i1Rule P v = 0))
    ∧ (∀ v i : ℝ, i ≠ 0 → sourceClamp P v i = 0 → P.voc ≤ v)
    ∧ (∀ s : State,
        (stepBody P s).i1_a = sourceClamp P ((stepBody P s).node_v) (i1Rule P s.node_v)) := by
  refine ⟨fun v => ⟨fun h => if_pos h, fun h => if_neg h⟩, ?_, fun s => rfl⟩
  intro v i hi h0
  by_cases h : P.voc ≤ v ∧ i ≠ 0
  · exact h.1
  · rw [sourceClamp, if_neg h] at h0
    exact absurd h0 hi

/-- Witness for claim C5 at concrete inputs. -/
theorem claim5_witness :
    i1Rule Pbase (1/2) = isc Pbase ∧ i1Rule Pbase 2 = 0 ∧ Pbase.voc ≤ 5
      ∧ (stepBody Pbase Sdis).i1_a
          = sourceClamp Pbase ((stepBody Pbase Sdis).node_v) (i1Rule Pbase Sdis.node_v) := by
  refine ⟨((claim5_source_rules Pbase).1 (1/2)).1 ?_,
    ((claim5_source_rules Pbase).1 2).2 ?_,
    (claim5_source_rules Pbase).2.1 5 1 ?_ ?_,
    (claim5_source_rules Pbase).2.2 Sdis⟩
  · constructor <;> norm_num [Pbase]
  · norm_num [Pbase]
  · norm_num
  · norm_num [sourceClamp, Pbase]

/-- The default entry has time zero. -/
theorem default_entry_t : (default : Entry).t = 0 := rfl

/-- The head of the mapped time list is the loop guard value. -/
theorem headI_map_t (s : State) : (s.log.map Entry.t).headI = lastTime s := by
  unfold lastTime
  cases s.log with
  | nil => rfl
  | cons e l => rfl

/-- The loop only touches the time components through the time skeleton. -/
theorem loopN_log_map (P : Params) :
    ∀ (n : ℕ) (s : State),
      (loopN n P s).log.map Entry.t = timeRun n P.dt_s P.dur_s s.t_s (s.log.map Entry.t) := by
  intro n
  induction n with
  | zero => intro s; rfl
  | succ n ih =>
      intro s
      by_cases h : lastTime s < P.dur_s
      · rw [show loopN (n + 1) P s = loopN n P (stepBody P s) by
          simp only [loopN, if_pos h]]
        rw [ih (stepBody P s)]
        have h1 : (stepBody P s).log.map Entry.t = s.t_s :: s.log.map Entry.t := by
          simp [stepBody]
        have h2 : (stepBody P s).t_s = s.t_s + P.dt_s := rfl
        rw [h1, h2, show timeRun (n + 1) P.dt_s P.dur_s s.t_s (s.log.map Entry.t)
            = timeRun n P.dt_s P.dur_s (s.t_s + P.dt_s) (s.t_s :: s.log.map Entry.t) by
          simp only [timeRun]
          rw [headI_map_t, if_pos h]]
      · rw [show loopN (n + 1) P s = s by simp only [loopN, if_neg h],
          show timeRun (n + 1) P.dt_s P.dur_s s.t_s (s.log.map Entry.t) = s.log.map Entry.t by
            simp only [timeRun]
            rw [headI_map_t, if_neg h]]

/-- Closed form of the time skeleton once the relation between the running
time and the last logged time has been established: with enough fuel it
appends exactly ceil((dur - last) / dt) times spaced dt apart. -/
theorem timeRun_closed (dt dur : ℝ) (hdt : 0 < dt) :
    ∀ (n : ℕ) (t : ℝ) (ts : List ℝ), t = ts.headI + dt →
      (⌈(dur - ts.headI) / dt⌉).toNat ≤ n →
      timeRun n dt dur t ts =
        ((List.range (⌈(dur - ts.headI) / dt⌉).toNat).map
          (fun k : ℕ => t + (k : ℝ) * dt)).reverse ++ ts := by
  intro n
  induction n with
  | zero =>
      intro t ts ht hle
      rw [Nat.le_zero] at hle
      rw [hle]
      simp [timeRun]
  | succ n ih =>
      intro t ts ht hle
      by_cases h : ts.headI < dur
      · have hpos : 0 < ⌈(dur - ts.headI) / dt⌉ :=
          Int.ceil_pos.mpr (div_pos (sub_pos.mpr h) hdt)
        have hhead : (t :: ts).headI = t := rfl
        have hdiv : (dur - t) / dt = (dur - ts.headI) / dt - 1 := by
          rw [ht]
          field_simp
          ring
        have hceil : ⌈(dur - t) / dt⌉ = ⌈(dur - ts.headI) / dt⌉ - 1 := by
          rw [hdiv, Int.ceil_sub_one]
        have hstep : timeRun (n + 1) dt dur t ts = timeRun n dt dur (t + dt) (t :: ts) := by
          simp only [timeRun, if_pos h]
        have harg : (⌈(dur - (t :: ts).headI) / dt⌉).toNat ≤ n := by
          rw [hhead, hceil]
          omega
        have ihap := ih (t + dt) (t :: ts) (by rw [hhead]) harg
        rw [hstep, ihap, hhead, hceil]
        have hR : (⌈(dur - ts.headI) / dt⌉).toNat
            = (⌈(dur - ts.headI) / dt⌉ - 1).toNat + 1 := by omega
        have hfun : ((fun k : ℕ => t + (k : ℝ) * dt) ∘ Nat.succ)
            = fun k : ℕ => t + dt + (k : ℝ) * dt := by
          funext k
          simp only [Function.comp]
          push_cast
          ring
        rw [hR, List.range_succ_eq_map, List.map_cons, List.map_map, List.reverse_cons,
          List.append_assoc, hfun]
        norm_num
      · have hz : (⌈(dur - ts.headI) / dt⌉).toNat = 0 := by
          have hd : (dur - ts.headI) / dt ≤ 0 :=
            div_nonpos_iff.mpr (Or.inr ⟨by linarith [not_lt.mp h], hdt.le⟩)
          have := Int.ceil_le.mpr (show (dur - ts.headI) / dt ≤ ((0 : ℤ) : ℝ) by
            exact_mod_cast hd)
          omega
        rw [hz]
        simp only [timeRun]
        rw [if_neg h]
        simp

/-- Full characterization of the logged times for a completed run: the
internal log holds, most recent first, the times R dt, ..., 2 dt, dt followed
by the duplicated pair of zeros, where R = ceil(dur / dt). -/
theorem loopN_log_times (P : Params) (hdt : 0 < P.dt_s) (hdur : 0 < P.dur_s) :
    (loopN (simFuel P) P (initState P)).log.map Entry.t
      = ((List.range (stepsOf P)).map (fun k : ℕ => P.dt_s + (k : ℝ) * P.dt_s)).reverse
          ++ [0, 0] := by
  rw [loopN_log_map P (simFuel P) (initState P)]
  have h0 : (initState P).log.map Entry.t = [0] := by simp [initState]
  have ht0 : (initState P).t_s = 0 := rfl
  rw [h0, ht0, show simFuel P = (stepsOf P + 1) + 1 from rfl]
  rw [show timeRun (stepsOf P + 1 + 1) P.dt_s P.dur_s 0 [0]
      = timeRun (stepsOf P + 1) P.dt_s P.dur_s (0 + P.dt_s) [0, 0] by
    simp only [timeRun]
    rw [if_pos (by simpa using hdur : (([0] : List ℝ)).headI < P.dur_s)]]
  have happ := timeRun_closed P.dt_s P.dur_s hdt (stepsOf P + 1) (0 + P.dt_s) [0, 0]
    (by norm_num) (by rw [show (([0, 0] : List ℝ)).headI = 0 from rfl, sub_zero]
                      exact Nat.le_succ _)
  rw [happ, show (([0, 0] : List ℝ)).headI = 0 from rfl, sub_zero]
  simp only [zero_add]
  rfl

/-- Trace times in order: one leading zero, then 0, dt, 2 dt, ..., R dt. -/
theorem traceOf_times (P : Params) (hdt : 0 < P.dt_s) (hdur : 0 < P.dur_s) :
    (traceOf P).map Prod.fst
      = 0 :: (List.range (stepsOf P + 1)).map (fun k : ℕ => (k : ℝ) * P.dt_s) := by
  have h1 : (traceOf P).map Prod.fst
      = ((loopN (simFuel P) P (initState P)).log.map Entry.t).reverse := by
    unfold traceOf
    rw [List.map_map, ← List.map_reverse]
    rfl
  rw [h1, loopN_log_times P hdt hdur, List.reverse_append, List.reverse_reverse]
  have h2 : (List.range (stepsOf P + 1)).map (fun k : ℕ => (k : ℝ) * P.dt_s)
      = 0 :: (List.range (stepsOf P)).map (fun k : ℕ => P.dt_s + (k : ℝ) * P.dt_s) := by
    have hfun : ((fun k : ℕ => (k : ℝ) * P.dt_s) ∘ Nat.succ)
        = fun k : ℕ => P.dt_s + (k : ℝ) * P.dt_s := by
      funext k
      simp only [Function.comp]
      push_cast
      ring
    rw [List.range_succ_eq_map, List.map_cons, List.map_map, hfun]
    norm_num
  rw [h2]
  rfl

/-- Length of the finished trace for positive step and duration. -/
theorem traceOf_length (P : Params) (hdt : 0 < P.dt_s) (hdur : 0 < P.dur_s) :
    (traceOf P).length = stepsOf P + 2 := by
  have h := congrArg List.length (traceOf_times P hdt hdur)
  simp only [List.length_map, List.length_cons, List.length_range] at h
  omega

/-- The loop only ever appends to the log. -/
theorem loopN_log_append (P : Params) :
    ∀ (n : ℕ) (s : State), ∃ pre, (loopN n P s).log = pre ++ s.log := by
  intro n
  induction n with
  | zero => intro s; exact ⟨[], rfl⟩
  | succ n ih =>
      intro s
      by_cases h : lastTime s < P.dur_s
      · obtain ⟨pre, hp⟩ := ih (stepBody P s)
        refine ⟨pre ++ [⟨s.t_s, stepVolt P s, chargeUpdate P s⟩], ?_⟩
        rw [show loopN (n + 1) P s = loopN n P (stepBody P s) by
          simp only [loopN, if_pos h], hp]
        simp [stepBody]
      · exact ⟨[], by simp only [loopN, if_neg h]; rfl⟩

/-- The first trace entry is always the initialization sample. -/
theorem traceOf_head (P : Params) :
    ∃ rest, traceOf P = (0, (initState P).node_v) :: rest := by
  obtain ⟨pre, hp⟩ := loopN_log_append P (simFuel P) (initState P)
  refine ⟨(pre.reverse).map (fun e => (e.t, e.v)), ?_⟩
  unfold traceOf
  rw [hp, show (initState P).log = [⟨0, initVolt P, P.q0_c⟩] from rfl,
    List.reverse_append]
  rfl

/-- For a nonpositive duration the loop guard fails immediately. -/
theorem loopN_nonpos (P : Params) (hdur : P.dur_s ≤ 0) (n : ℕ) :
    loopN n P (initState P) = initState P := by
  cases n with
  | zero => rfl
  | succ n =>
      have h : ¬ lastTime (initState P) < P.dur_s := by
        rw [show lastTime (initState P) = 0 from rfl]
        linarith
      simp only [loopN, if_neg h]

/-- For a nonpositive duration the trace is the single initialization sample. -/
theorem traceOf_nonpos (P : Params) (hdur : P.dur_s ≤ 0) :
    traceOf P = [(0, (initState P).node_v)] := by
  unfold traceOf
  rw [loopN_nonpos P hdur]
  rfl

/-- Claim C2, amended: for positive dt and duration the finished trace has
exactly ceil(dur / dt) + 2 samples (which equals floor(dur / dt) + 2 exactly
when dt divides dur, in particular 12 samples for dur = 10, dt = 1), and its
first entry is (0, initial voltage). -/
theorem claim2_amended (P : Params) (hdt : 0 < P.dt_s) (hdur : 0 < P.dur_s) :
    (traceOf P).length = stepsOf P + 2
    ∧ (traceOf P).headI = (0, (initState P).node_v) := by
  refine ⟨traceOf_length P hdt hdur, ?_⟩
  obtain ⟨rest, hr⟩ := traceOf_head P
  rw [hr]
  rfl

/-- Claim C3, amended: the trace times are appended in non-decreasing order,
and they are strictly increasing from the second sample on; only the first
two samples share the time value 0. -/
theorem claim3_amended (P : Params) (hdt : 0 < P.dt_s) :
    List.Chain' (· ≤ ·) ((traceOf P).map Prod.fst)
    ∧ List.Chain' (· < ·) (((traceOf P).map Prod.fst).tail) := by
  by_cases hdur : 0 < P.dur_s
  · rw [traceOf_times P hdt hdur]
    have hstrict : List.Chain' (· < ·)
        ((List.range (stepsOf P + 1)).map (fun k : ℕ => (k : ℝ) * P.dt_s)) := by
      rw [List.chain'_map, List.chain'_range_succ]
      intro m hm
      push_cast
      nlinarith
    refine ⟨?_, by simpa using hstrict⟩
    rw [List.chain'_cons']
    refine ⟨?_, hstrict.imp fun a b hab => le_of_lt hab⟩
    intro y hy
    rw [List.range_succ_eq_map, List.map_cons, List.head?_cons] at hy
    simp only [Option.mem_def, Option.some.injEq] at hy
    rw [← hy]
    norm_num
  · rw [traceOf_nonpos P (not_lt.mp hdur)]
    constructor <;> simp

/-- Claim C10: for a nonpositive duration the loop body never runs, the trace
is the single sample (0, initial voltage), and at duration exactly zero this
is one sample fewer than the floor(dur / dt) + 2 formula predicts. -/
theorem claim10_nonpos_duration (P : Params) (hdur : P.dur_s ≤ 0) :
    traceOf P = [(0, (initState P).node_v)]
    ∧ (traceOf P).length = 1
    ∧ (P.dur_s = 0 → (traceOf P).length + 1 = (⌊P.dur_s / P.dt_s⌋).toNat + 2) := by
  refine ⟨traceOf_nonpos P hdur, by rw [traceOf_nonpos P hdur]; rfl, ?_⟩
  intro h0
  rw [traceOf_nonpos P hdur, h0]
  norm_num

/-- Witness for claim C10 at zero duration. -/
theorem claim10_witness :
    traceOf Pdur0 = [(0, (initState Pdur0).node_v)]
    ∧ (traceOf Pdur0).length = 1
    ∧ (Pdur0.dur_s = 0 →
        (traceOf Pdur0).length + 1 = (⌊Pdur0.dur_s / Pdur0.dt_s⌋).toNat + 2) :=
  claim10_nonpos_duration Pdur0 (by norm_num [Pdur0])

/-- Once the loop guard has failed, one unit of extra fuel changes nothing. -/
theorem loopN_succ_stable (P : Params) :
    ∀ (n : ℕ) (s : State), ¬ lastTime (loopN n P s) < P.dur_s →
      loopN (n + 1) P s = loopN n P s := by
  intro n
  induction n with
  | zero =>
      intro s h
      simp only [loopN] at h ⊢
      rw [if_neg h]
  | succ n ih =>
      intro s h
      by_cases hg : lastTime s < P.dur_s
      · have h1 : loopN (n + 1) P s = loopN n P (stepBody P s) := by
          simp only [loopN, if_pos hg]
        have h2 : loopN (n + 1 + 1) P s = loopN (n + 1) P (stepBody P s) := by
          simp only [loopN, if_pos hg]
        rw [h2, ih (stepBody P s) (by rw [← h1]; exact h), ← h1]
      · simp only [loopN, if_neg hg]

/-- Any amount of extra fuel past a finished run leaves the result unchanged. -/
theorem loopN_stable (P : Params) (s : State) (n : ℕ)
    (h : ¬ lastTime (loopN n P s) < P.dur_s) :
    ∀ m, n ≤ m → loopN m P s = loopN n P s := by
  intro m hm
  induction m, hm using Nat.le_induction with
  | base => rfl
  | succ m hm ih => rw [loopN_succ_stable P m s (by rw [ih]; exact h), ih]

/-- Claim C8: determinism.  The finished trace is a pure function of the ten
input parameters alone, and the loop outcome is independent of the iteration
budget once the guard has failed, so a run has exactly one possible trace:
there is no dependence on randomness or wall-clock time. -/
theorem claim8_deterministic :
    (∀ P1 P2 : Params, P1.sa_m2 = P2.sa_m2 → P1.eff = P2.eff → P1.voc = P2.voc →
      P1.c_f = P2.c_f → P1.r_esr = P2.r_esr → P1.q0_c = P2.q0_c →
      P1.p_on_w = P2.p_on_w → P1.v_thresh = P2.v_thresh → P1.dt_s = P2.dt_s →
      P1.dur_s = P2.dur_s → traceOf P1 = traceOf P2)
    ∧ (∀ (P : Params) (n m : ℕ),
        ¬ lastTime (loopN n P (initState P)) < P.dur_s →
        ¬ lastTime (loopN m P (initState P)) < P.dur_s →
        loopN n P (initState P) = loopN m P (initState P)) := by
  constructor
  · intro P1 P2 h1 h2 h3 h4 h5 h6 h7 h8 h9 h10
    have hP : P1 = P2 := by ext <;> assumption
    rw [hP]
  · intro P n m hn hm
    rcases le_total n m with h | h
    · rw [loopN_stable P (initState P) n hn m h]
    · rw [loopN_stable P (initState P) m hm n h]

/-- Witness for claim C8 at concrete zero-duration parameters. -/
theorem claim8_witness :
    traceOf Pdur0 = traceOf Pdur0b
    ∧ loopN 3 Pdur0 (initState Pdur0) = loopN 7 Pdur0 (initState Pdur0) := by
  have hfin : ∀ k : ℕ, ¬ lastTime (loopN k Pdur0 (initState Pdur0)) < Pdur0.dur_s := by
    intro k
    rw [loopN_nonpos Pdur0 (by norm_num [Pdur0]) k,
      show lastTime (initState Pdur0) = 0 from rfl]
    norm_num [Pdur0]
  exact ⟨claim8_deterministic.1 Pdur0 Pdur0b rfl rfl rfl rfl rfl rfl rfl rfl rfl rfl,
    claim8_deterministic.2 Pdur0 3 7 (hfin 3) (hfin 7)⟩

/-- The clamp of lines 109 and 110 never returns a negative charge. -/
theorem clampCharge_nonneg (q : ℝ) : 0 ≤ clampCharge q := by
  unfold clampCharge
  by_cases h : q < 0
  · rw [if_pos h]
  · rw [if_neg h]
    exact not_lt.mp h

/-- Every charge the loop records was produced by the clamp, so the log keeps
nonnegative charges as long as it starts with nonnegative ones. -/
theorem loopN_log_q_nonneg (P : Params) :
    ∀ (n : ℕ) (s : State), (∀ e ∈ s.log, 0 ≤ e.q) →
      ∀ e ∈ (loopN n P s).log, 0 ≤ e.q := by
  intro n
  induction n with
  | zero => intro s hs; exact hs
  | succ n ih =>
      intro s hs
      by_cases h : lastTime s < P.dur_s
      · rw [show loopN (n + 1) P s = loopN n P (stepBody P s) by
          simp only [loopN, if_pos h]]
        refine ih (stepBody P s) ?_
        intro e he
        rw [show (stepBody P s).log
            = ⟨s.t_s, stepVolt P s, chargeUpdate P s⟩ :: s.log from rfl] at he
        rcases List.mem_cons.mp he with h1 | h1
        · rw [h1]
          exact clampCharge_nonneg _
        · exact hs e h1
      · rw [show loopN (n + 1) P s = s by simp only [loopN, if_neg h]]
        exact hs

/-- The state charge stays nonnegative through the loop. -/
theorem loopN_qt_nonneg (P : Params) :
    ∀ (n : ℕ) (s : State), 0 ≤ s.qt_c → 0 ≤ (loopN n P s).qt_c := by
  intro n
  induction n with
  | zero => intro s hs; exact hs
  | succ n ih =>
      intro s hs
      by_cases h : lastTime s < P.dur_s
      · rw [show loopN (n + 1) P s = loopN n P (stepBody P s) by
          simp only [loopN, if_pos h]]
        exact ih (stepBody P s) (clampCharge_nonneg _)
      · rw [show loopN (n + 1) P s = s by simp only [loopN, if_neg h]]
        exact hs

/-- Counterexample to claim C4 as stated: with initial charge parameter -1,
the initialization sample derives its voltage from the negative charge -1.
The script clamps the charge only inside the loop, never at initialization,
and performs no input validation. -/
theorem claim4_cx : ∃ e ∈ (initState PqNeg).log, e.q < 0 := by
  refine ⟨⟨0, initVolt PqNeg, PqNeg.q0_c⟩, ?_, ?_⟩
  · rw [show (initState PqNeg).log = [⟨0, initVolt PqNeg, PqNeg.q0_c⟩] from rfl]
    exact List.mem_singleton.mpr rfl
  · norm_num [PqNeg]

/-- Claim C4, amended: provided the initial charge parameter q0_c is
nonnegative, the charge value used to derive the voltage is nonnegative at
every sample of the run, and the charge held in the state stays nonnegative;
the loop recomputations are clamped unconditionally, only the unvalidated
initial charge can be negative. -/
theorem claim4_amended (P : Params) (hq0 : 0 ≤ P.q0_c) (n : ℕ) :
    (∀ e ∈ (loopN n P (initState P)).log, 0 ≤ e.q)
    ∧ 0 ≤ (loopN n P (initState P)).qt_c := by
  constructor
  · refine loopN_log_q_nonneg P n (initState P) ?_
    intro e he
    rw [show (initState P).log = [⟨0, initVolt P, P.q0_c⟩] from rfl] at he
    have h := List.mem_singleton.mp he
    rw [h]
    exact hq0
  · exact loopN_qt_nonneg P n (initState P) hq0

/-- Witness for the amended claim C4. -/
theorem claim4_witness :
    (∀ e ∈ (loopN 2 PqPos (initState PqPos)).log, 0 ≤ e.q)
    ∧ 0 ≤ (loopN 2 PqPos (initState PqPos)).qt_c :=
  claim4_amended PqPos (by norm_num [PqPos]) 2

/-- Claim C9: with voc = 0 the very first computation of the run, the
calc_solar_current call at initialization, divides by zero and the process
dies before any sample is produced; with nonzero voc the division succeeds. -/
theorem claim9_voc_zero (P : Params) :
    (P.voc = 0 → calc_solar_current_checked irrad P.sa_m2 P.eff P.voc = none
      ∧ initStateChecked P = none)
    ∧ (P.voc ≠ 0 → calc_solar_current_checked irrad P.sa_m2 P.eff P.voc
        = some (calc_solar_current irrad P.sa_m2 P.eff P.voc)
      ∧ initStateChecked P = some (initState P)) := by
  constructor
  · intro h
    constructor <;> simp [calc_solar_current_checked, initStateChecked, h]
  · intro h
    constructor <;> simp [calc_solar_current_checked, initStateChecked, h]

/-- Witness for claim C9: both legs at concrete parameters. -/
theorem claim9_witness :
    (calc_solar_current_checked irrad Pvoc0.sa_m2 Pvoc0.eff Pvoc0.voc = none
      ∧ initStateChecked Pvoc0 = none)
    ∧ (calc_solar_current_checked irrad Pbase.sa_m2 Pbase.eff Pbase.voc
        = some (calc_solar_current irrad Pbase.sa_m2 Pbase.eff Pbase.voc)
      ∧ initStateChecked Pbase = some (initState Pbase)) :=
  ⟨(claim9_voc_zero Pvoc0).1 (by norm_num [Pvoc0]),
   (claim9_voc_zero Pbase).2 (by norm_num [Pbase])⟩

/-- Claim C7: a state whose voltage is exactly zero is reachable, here already
at initialization with zero area and zero initial charge; the loop is then
entered, and the load current division of line 106 runs with divisor zero:
the checked step aborts, so no further sample is ever appended. -/
theorem claim7_zero_voltage_divzero :
    (initState Pzero).node_v = 0
    ∧ lastTime (initState Pzero) < Pzero.dur_s
    ∧ stepChecked Pzero (initState Pzero) = none := by
  have hv : (initState Pzero).node_v = 0 := by
    show initVolt Pzero = 0
    norm_num [initVolt, usedDiscr, fallbackPower, calc_node_discr, calc_node_voltage,
      isc, calc_solar_current, Pzero, Real.sqrt_zero]
  refine ⟨hv, ?_, by simp [stepChecked, hv]⟩
  rw [show lastTime (initState Pzero) = 0 from rfl]
  norm_num [Pzero]

/-- With zero collecting area the short circuit current vanishes. -/
theorem isc_zero (P : Params) (hsa : P.sa_m2 = 0) : isc P = 0 := by
  simp [isc, calc_solar_current, hsa]

/-- With zero short circuit current the source recompute always yields zero. -/
theorem i1Rule_zero (P : Params) (h : isc P = 0) (v : ℝ) : i1Rule P v = 0 := by
  simp [i1Rule, h]

/-- With zero short circuit current every loop step leaves zero source current. -/
theorem stepBody_i1_zero (P : Params) (h : isc P = 0) (s : State) :
    (stepBody P s).i1_a = 0 := by
  show sourceClamp P (stepVolt P s) (i1Rule P s.node_v) = 0
  rw [i1Rule_zero P h]
  simp [sourceClamp]

/-- With zero short circuit current the initial source current is zero. -/
theorem initState_i1_zero (P : Params) (h : isc P = 0) : (initState P).i1_a = 0 := by
  show sourceClamp P (initVolt P) (isc P) = 0
  rw [h]
  simp [sourceClamp]

/-- With zero short circuit current the loop keeps the source current at 0. -/
theorem loopN_i1_zero (P : Params) (h : isc P = 0) :
    ∀ (n : ℕ) (s : State), s.i1_a = 0 → (loopN n P s).i1_a = 0 := by
  intro n
  induction n with
  | zero => intro s hs; exact hs
  | succ n ih =>
      intro s hs
      by_cases hg : lastTime s < P.dur_s
      · rw [show loopN (n + 1) P s = loopN n P (stepBody P s) by
          simp only [loopN, if_pos hg]]
        exact ih (stepBody P s) (stepBody_i1_zero P h s)
      · rw [show loopN (n + 1) P s = s by simp only [loopN, if_neg hg]]
        exact hs

/-- Discharge monotonicity: with no source current, a positive consistent
voltage and a load that stays feasible, one loop step strictly decreases the
node voltage. -/
theorem discharge_step (P : Params) (hsa : P.sa_m2 = 0) (s : State)
    (hi : s.i1_a = 0) (hp : 0 < s.p_mode_w) (hv : 0 < s.node_v) (hq : 0 < s.qt_c)
    (hc : 0 < P.c_f) (hr : 0 ≤ P.r_esr) (hdt : 0 < P.dt_s)
    (hform : s.node_v
      = calc_node_voltage (calc_node_discr s.qt_c P.c_f 0 P.r_esr s.p_mode_w)
          s.qt_c P.c_f 0 P.r_esr)
    (hdisc : 0 ≤ calc_node_discr (chargeUpdate P s) P.c_f 0 P.r_esr s.p_mode_w) :
    (stepBody P s).node_v < s.node_v := by
  have hisc := isc_zero P hsa
  have hi1 : i1Rule P s.node_v = 0 := i1Rule_zero P hisc _
  have hpo : powerOn P s.p_mode_w s.node_v = s.p_mode_w := by
    unfold powerOn
    rw [if_neg]
    rintro ⟨h0, _⟩
    exact absurd h0 (ne_of_gt hp)
  have hq2lt : chargeUpdate P s < s.qt_c := by
    unfold chargeUpdate clampCharge
    rw [hi]
    have hpos : 0 < s.p_mode_w / s.node_v * P.dt_s := mul_pos (div_pos hp hv) hdt
    rw [show s.qt_c + (0 - s.p_mode_w / s.node_v) * P.dt_s
        = s.qt_c - s.p_mode_w / s.node_v * P.dt_s by ring]
    by_cases hneg : s.qt_c - s.p_mode_w / s.node_v * P.dt_s < 0
    · rw [if_pos hneg]
      exact hq
    · rw [if_neg hneg]
      linarith
  have hq2nn : 0 ≤ chargeUpdate P s := clampCharge_nonneg _
  have hstep : (stepBody P s).node_v
      = calc_node_voltage (calc_node_discr (chargeUpdate P s) P.c_f 0 P.r_esr s.p_mode_w)
          (chargeUpdate P s) P.c_f 0 P.r_esr := by
    show stepVolt P s = _
    unfold stepVolt
    rw [hi1, hpo]
    unfold usedDiscr fallbackPower
    rw [if_neg (not_lt.mpr hdisc)]
  rw [hstep, hform]
  unfold calc_node_voltage calc_node_discr
  have h1 : chargeUpdate P s / P.c_f < s.qt_c / P.c_f := by gcongr
  have h2 : Real.sqrt ((chargeUpdate P s / P.c_f + 0 * P.r_esr) ^ 2
        - 4 * s.p_mode_w * P.r_esr)
      ≤ Real.sqrt ((s.qt_c / P.c_f + 0 * P.r_esr) ^ 2 - 4 * s.p_mode_w * P.r_esr) := by
    apply Real.sqrt_le_sqrt
    have hsq : (chargeUpdate P s / P.c_f) ^ 2 ≤ (s.qt_c / P.c_f) ^ 2 :=
      pow_le_pow_left₀ (div_nonneg hq2nn hc.le) h1.le 2
    nlinarith [hsq]
  linarith [h1, h2]

/-- Idle phase, one step: with the load off, no source current and the
capacitor voltage below voc, the step keeps the charge and both modes off,
and the voltage becomes the plain capacitor voltage q / c. -/
theorem idle_step (P : Params) (hsa : P.sa_m2 = 0) (s : State)
    (hi : s.i1_a = 0) (hp : s.p_mode_w = 0) (hq : 0 ≤ s.qt_c) (hc : 0 < P.c_f)
    (hv0 : 0 ≤ s.node_v) (hv1 : s.node_v < P.voc) :
    (stepBody P s).qt_c = s.qt_c ∧ (stepBody P s).i1_a = 0
    ∧ (stepBody P s).p_mode_w = 0 ∧ (stepBody P s).node_v = s.qt_c / P.c_f := by
  have hisc := isc_zero P hsa
  have hq2 : chargeUpdate P s = s.qt_c := by
    unfold chargeUpdate clampCharge
    rw [hi, hp]
    rw [show s.qt_c + (0 - 0 / s.node_v) * P.dt_s = s.qt_c by rw [zero_div]; ring]
    rw [if_neg (not_lt.mpr hq)]
  have hpo : powerOn P s.p_mode_w s.node_v = 0 := by
    unfold powerOn
    rw [hp, if_neg]
    rintro ⟨_, hge⟩
    exact absurd hv1 (not_lt.mpr hge)
  have hqc : 0 ≤ s.qt_c / P.c_f := div_nonneg hq hc.le
  have hvolt : stepVolt P s = s.qt_c / P.c_f := by
    unfold stepVolt
    rw [hq2, i1Rule_zero P hisc, hpo]
    unfold usedDiscr fallbackPower
    rw [ite_self]
    unfold calc_node_discr calc_node_voltage
    rw [show (s.qt_c / P.c_f + 0 * P.r_esr) ^ 2 - 4 * 0 * P.r_esr
        = (s.qt_c / P.c_f) ^ 2 by ring]
    rw [Real.sqrt_sq hqc]
    ring
  refine ⟨hq2, ?_, ?_, hvolt⟩
  · show sourceClamp P (stepVolt P s) (i1Rule P s.node_v) = 0
    rw [i1Rule_zero P hisc]
    simp [sourceClamp]
  · show threshRule P (stepVolt P s)
        (fallbackPower (chargeUpdate P s) P.c_f (i1Rule P s.node_v) P.r_esr
          (powerOn P s.p_mode_w s.node_v)) = 0
    rw [i1Rule_zero P hisc, hpo, hq2]
    simp [threshRule, fallbackPower]

/-- Idle phase preserved: all later steps keep charge, modes and voltage. -/
theorem idle_iterate (P : Params) (hsa : P.sa_m2 = 0) (s : State)
    (hi : s.i1_a = 0) (hp : s.p_mode_w = 0) (hq : 0 ≤ s.qt_c) (hc : 0 < P.c_f)
    (hqv : s.qt_c / P.c_f < P.voc) (hv0 : 0 ≤ s.node_v) (hv1 : s.node_v < P.voc) :
    ∀ n : ℕ, ((stepBody P)^[n + 1] s).node_v = s.qt_c / P.c_f
      ∧ ((stepBody P)^[n + 1] s).qt_c = s.qt_c
      ∧ ((stepBody P)^[n + 1] s).i1_a = 0
      ∧ ((stepBody P)^[n + 1] s).p_mode_w = 0 := by
  intro n
  induction n with
  | zero =>
      obtain ⟨h1, h2, h3, h4⟩ := idle_step P hsa s hi hp hq hc hv0 hv1
      exact ⟨by simpa using h4, by simpa using h1, by simpa using h2, by simpa using h3⟩
  | succ n ih =>
      obtain ⟨hv, hq2, hi2, hp2⟩ := ih
      have hstep := idle_step P hsa ((stepBody P)^[n + 1] s) hi2 hp2
        (by rw [hq2]; exact hq) hc (by rw [hv]; exact div_nonneg hq hc.le)
        (by rw [hv]; exact hqv)
      rw [Function.iterate_succ_apply']
      refine ⟨?_, ?_, hstep.2.1, hstep.2.2.1⟩
      · rw [hstep.2.2.2, hq2]
      · rw [hstep.1, hq2]

/-- Claim C6, amended: with sa_m2 = 0 the short circuit current is zero and
the source current is zero at every step of the run; while the load is on and
stays feasible, each loop step strictly decreases the voltage, tracking the
discharge of the load through the capacitor; and once the load is off, the
charge never changes again, and provided the idle capacitor voltage q / c
stays below voc, so that the power-on rule cannot re-arm the load, the
voltage is constant at q / c for all remaining steps.  Unrestricted
post-cutoff constancy is false, see the counterexample. -/
theorem claim6_amended (P : Params) (hsa : P.sa_m2 = 0) :
    isc P = 0
    ∧ (∀ n : ℕ, (loopN n P (initState P)).i1_a = 0)
    ∧ (∀ s : State, s.i1_a = 0 → 0 < s.p_mode_w → 0 < s.node_v → 0 < s.qt_c →
        0 < P.c_f → 0 ≤ P.r_esr → 0 < P.dt_s →
        s.node_v = calc_node_voltage (calc_node_discr s.qt_c P.c_f 0 P.r_esr s.p_mode_w)
          s.qt_c P.c_f 0 P.r_esr →
        0 ≤ calc_node_discr (chargeUpdate P s) P.c_f 0 P.r_esr s.p_mode_w →
        (stepBody P s).node_v < s.node_v)
    ∧ (∀ s : State, s.i1_a = 0 → s.p_mode_w = 0 → 0 ≤ s.qt_c → 0 < P.c_f →
        s.qt_c / P.c_f < P.voc → 0 ≤ s.node_v → s.node_v < P.voc →
        ∀ n : ℕ, ((stepBody P)^[n + 1] s).node_v = s.qt_c / P.c_f
          ∧ ((stepBody P)^[n + 1] s).qt_c = s.qt_c) := by
  refine ⟨isc_zero P hsa, ?_, ?_, ?_⟩
  · intro n
    exact loopN_i1_zero P (isc_zero P hsa) n (initState P)
      (initState_i1_zero P (isc_zero P hsa))
  · intro s hi hp hv hq hc hr hdt hform hdisc
    exact discharge_step P hsa s hi hp hv hq hc hr hdt hform hdisc
  · intro s hi hp hq hc hqv hv0 hv1 n
    obtain ⟨h1, h2, _, _⟩ := idle_iterate P hsa s hi hp hq hc hqv hv0 hv1 n
    exact ⟨h1, h2⟩

/-- Square root of four. -/
theorem sqrt_four : Real.sqrt 4 = 2 := by
  rw [show (4 : ℝ) = 2 ^ 2 by norm_num, Real.sqrt_sq (by norm_num : (0 : ℝ) ≤ 2)]

/-- Counterexample to claim C6 as stated: with sa_m2 = 0, q0_c = 2, c_f = 1,
r_esr = 1, p_on_w = 3/4, voc = 1.8 and v_thresh = 1.6, the initial voltage
1.5 is below the threshold 1.6, so the threshold rule cuts the load off at
initialization; yet the subsequent voltages are 2, 1.5, 2, ... because the
power-on rule re-arms the load whenever the idle voltage 2 reaches voc, so
the voltage does not remain constant after the threshold cutoff even though
the charge stays at 2. -/
theorem claim6_cx :
    (initState Posc).p_mode_w = 0
    ∧ (initState Posc).node_v < Posc.v_thresh
    ∧ (stepBody Posc (initState Posc)).node_v
        ≠ (stepBody Posc (stepBody Posc (initState Posc))).node_v := by
  have hisc : isc Posc = 0 := by norm_num [isc, calc_solar_current, Posc]
  have hv0 : initVolt Posc = 3 / 2 := by
    unfold initVolt
    rw [hisc]
    norm_num [usedDiscr, fallbackPower, calc_node_discr, calc_node_voltage, Posc,
      Real.sqrt_one]
  have hinit : initState Posc = ⟨2, 0, 0, 3 / 2, 0, [⟨0, 3 / 2, 2⟩]⟩ := by
    unfold initState
    rw [hv0, hisc]
    norm_num [sourceClamp, threshRule, fallbackPower, calc_node_discr, Posc]
  have hs1 : stepBody Posc (initState Posc)
      = ⟨2, 0, 0, 2, 1, [⟨0, 2, 2⟩, ⟨0, 3 / 2, 2⟩]⟩ := by
    rw [hinit]
    unfold stepBody stepVolt chargeUpdate clampCharge i1Rule powerOn usedDiscr
      fallbackPower calc_node_discr calc_node_voltage sourceClamp threshRule
    rw [hisc]
    norm_num [Posc, sqrt_four]
  have hs2v : (stepBody Posc (stepBody Posc (initState Posc))).node_v = 3 / 2 := by
    rw [hs1]
    show stepVolt Posc ⟨2, 0, 0, 2, 1, [⟨0, 2, 2⟩, ⟨0, 3 / 2, 2⟩]⟩ = 3 / 2
    unfold stepVolt chargeUpdate clampCharge i1Rule powerOn usedDiscr fallbackPower
      calc_node_discr calc_node_voltage
    rw [hisc]
    norm_num [Posc, Real.sqrt_one]
  have hs1v : (stepBody Posc (initState Posc)).node_v = 2 := by rw [hs1]
  refine ⟨by rw [hinit], by rw [hinit]; norm_num [Posc], ?_⟩
  rw [hs1v, hs2v]
  norm_num

/-- Witness for the amended claim C6 at concrete inputs: a zero-area run with
always-zero source current, a strictly decreasing discharge step, and a
constant idle step. -/
theorem claim6_witness :
    isc Posc = 0
    ∧ (loopN 3 Posc (initState Posc)).i1_a = 0
    ∧ (stepBody Pdis Sdis).node_v < Sdis.node_v
    ∧ ((stepBody Pconst)^[1] Sconst).node_v = Sconst.qt_c / Pconst.c_f := by
  refine ⟨(claim6_amended Posc rfl).1, (claim6_amended Posc rfl).2.1 3, ?_, ?_⟩
  · refine (claim6_amended Pdis rfl).2.2.1 Sdis rfl (by norm_num [Sdis])
      (by norm_num [Sdis]) (by norm_num [Sdis]) (by norm_num [Pdis])
      (by norm_num [Pdis]) (by norm_num [Pdis]) ?_ ?_
    · show Sdis.node_v = _
      norm_num [Sdis, Pdis, calc_node_voltage, calc_node_discr, Real.sqrt_one]
    · norm_num [Sdis, Pdis, chargeUpdate, clampCharge, calc_node_discr]
  · exact (((claim6_amended Pconst rfl).2.2.2 Sconst rfl rfl (by norm_num [Sconst])
      (by norm_num [Pconst]) (by norm_num [Sconst, Pconst]) (by norm_num [Sconst])
      (by norm_num [Sconst, Pconst])) 0).1

/-- Unit-charge idle run: with zero area, unit capacitance, unit initial
charge and zero load power, every reachable state of the run keeps charge 1,
both modes off, and node voltage exactly 1.  In particular every division
p_mode_w / node_v the script performs at such parameters has divisor 1, so
the program never hits the line 106 divide-by-zero and runs to completion:
the trace the model computes is the trace the program writes. -/
theorem unit_invariant (P : Params) (hsa : P.sa_m2 = 0) (hc : P.c_f = 1)
    (hq0 : P.q0_c = 1) (hpon : P.p_on_w = 0) :
    ∀ n : ℕ, (loopN n P (initState P)).qt_c = 1
      ∧ (loopN n P (initState P)).i1_a = 0
      ∧ (loopN n P (initState P)).p_mode_w = 0
      ∧ (loopN n P (initState P)).node_v = 1 := by
  have hisc := isc_zero P hsa
  have hinit : (initState P).qt_c = 1 ∧ (initState P).i1_a = 0
      ∧ (initState P).p_mode_w = 0 ∧ (initState P).node_v = 1 := by
    have hv : initVolt P = 1 := by
      unfold initVolt
      rw [hisc, hc, hq0, hpon]
      norm_num [usedDiscr, fallbackPower, calc_node_discr, calc_node_voltage,
        Real.sqrt_one]
    refine ⟨hq0, ?_, ?_, hv⟩
    · show sourceClamp P (initVolt P) (isc P) = 0
      rw [hisc]
      simp [sourceClamp]
    · show threshRule P (initVolt P)
          (fallbackPower P.q0_c P.c_f (isc P) P.r_esr P.p_on_w) = 0
      rw [hpon]
      simp [threshRule, fallbackPower]
  have hstep : ∀ s : State, s.qt_c = 1 → s.i1_a = 0 → s.p_mode_w = 0 →
      s.node_v = 1 →
      (stepBody P s).qt_c = 1 ∧ (stepBody P s).i1_a = 0
      ∧ (stepBody P s).p_mode_w = 0 ∧ (stepBody P s).node_v = 1 := by
    intro s h1 h2 h3 h4
    have hq2 : chargeUpdate P s = 1 := by
      unfold chargeUpdate clampCharge
      rw [h1, h2, h3]
      norm_num
    have hvolt : stepVolt P s = 1 := by
      unfold stepVolt
      rw [hq2, hc, h4, h3, i1Rule_zero P hisc]
      unfold powerOn
      rw [hpon, ite_self]
      norm_num [usedDiscr, fallbackPower, calc_node_discr, calc_node_voltage,
        Real.sqrt_one]
    refine ⟨hq2, ?_, ?_, hvolt⟩
    · show sourceClamp P (stepVolt P s) (i1Rule P s.node_v) = 0
      rw [i1Rule_zero P hisc]
      simp [sourceClamp]
    · show threshRule P (stepVolt P s)
          (fallbackPower (chargeUpdate P s) P.c_f (i1Rule P s.node_v) P.r_esr
            (powerOn P s.p_mode_w s.node_v)) = 0
      rw [h3]
      unfold powerOn
      rw [hpon, ite_self]
      simp [threshRule, fallbackPower]
  have hloop : ∀ (n : ℕ) (s : State), s.qt_c = 1 → s.i1_a = 0 → s.p_mode_w = 0 →
      s.node_v = 1 →
      (loopN n P s).qt_c = 1 ∧ (loopN n P s).i1_a = 0
      ∧ (loopN n P s).p_mode_w = 0 ∧ (loopN n P s).node_v = 1 := by
    intro n
    induction n with
    | zero => intro s h1 h2 h3 h4; exact ⟨h1, h2, h3, h4⟩
    | succ n ih =>
        intro s h1 h2 h3 h4
        by_cases hg : lastTime s < P.dur_s
        · rw [show loopN (n + 1) P s = loopN n P (stepBody P s) by
            simp only [loopN, if_pos hg]]
          obtain ⟨g1, g2, g3, g4⟩ := hstep s h1 h2 h3 h4
          exact ih (stepBody P s) g1 g2 g3 g4
        · rw [show loopN (n + 1) P s = s by simp only [loopN, if_neg hg]]
          exact ⟨h1, h2, h3, h4⟩
  intro n
  exact hloop n (initState P) hinit.1 hinit.2.1 hinit.2.2.1 hinit.2.2.2

/-- Counterexample to claim C2 as stated: with dt_s = 2 and dur_s = 1 the
finished trace has 3 samples, not floor(dur / dt) + 2 = 2.  The second
conjunct certifies the input against the program: every reachable state has
node voltage 1, so each division of line 106 has divisor 1 and the script
really completes this run and writes this trace. -/
theorem claim2_cx :
    (traceOf PfloorCx).length ≠ (⌊PfloorCx.dur_s / PfloorCx.dt_s⌋).toNat + 2
    ∧ ∀ n : ℕ, (loopN n PfloorCx (initState PfloorCx)).node_v = 1 := by
  constructor
  · have hlen : (traceOf PfloorCx).length = 3 := by
      rw [traceOf_length PfloorCx (by norm_num [PfloorCx]) (by norm_num [PfloorCx])]
      have hceil : ⌈PfloorCx.dur_s / PfloorCx.dt_s⌉ = 1 := by
        rw [show PfloorCx.dur_s / PfloorCx.dt_s = (1 : ℝ) / 2 by norm_num [PfloorCx]]
        rw [Int.ceil_eq_iff]
        constructor <;> norm_num
      rw [stepsOf, hceil]
      rfl
    have hfloor : ⌊PfloorCx.dur_s / PfloorCx.dt_s⌋ = 0 := by
      rw [show PfloorCx.dur_s / PfloorCx.dt_s = (1 : ℝ) / 2 by norm_num [PfloorCx]]
      rw [Int.floor_eq_iff]
      constructor <;> norm_num
    rw [hlen, hfloor]
    norm_num
  · intro n
    exact (unit_invariant PfloorCx rfl rfl rfl rfl n).2.2.2

/-- Witness for the amended claim C2: dur = 10, dt = 1 gives 12 samples, at
an input the script runs to completion on (every divisor of line 106 is 1). -/
theorem claim2_witness :
    (traceOf Prun).length = 12
    ∧ (traceOf Prun).headI = (0, (initState Prun).node_v)
    ∧ ∀ n : ℕ, (loopN n Prun (initState Prun)).node_v = 1 := by
  have h := claim2_amended Prun (by norm_num [Prun]) (by norm_num [Prun])
  refine ⟨?_, h.2, fun n => (unit_invariant Prun rfl rfl rfl rfl n).2.2.2⟩
  rw [h.1]
  have hceil : ⌈Prun.dur_s / Prun.dt_s⌉ = 10 := by
    rw [show Prun.dur_s / Prun.dt_s = (10 : ℝ) by norm_num [Prun]]
    rw [Int.ceil_eq_iff]
    constructor <;> norm_num
  rw [stepsOf, hceil]
  rfl

/-- Counterexample to claim C3 as stated: with dt = 1 and dur = 1 the first
two samples both carry time 0, so the times are not strictly increasing.
The second conjunct certifies the input against the program: every reachable
state has node voltage 1, so the script really completes this run and the
duplicated time-0 pair does occur in its written trace. -/
theorem claim3_cx :
    ¬ List.Chain' (· < ·) ((traceOf PdupCx).map Prod.fst)
    ∧ ∀ n : ℕ, (loopN n PdupCx (initState PdupCx)).node_v = 1 := by
  constructor
  · have hceil : ⌈PdupCx.dur_s / PdupCx.dt_s⌉ = 1 := by
      rw [show PdupCx.dur_s / PdupCx.dt_s = (1 : ℝ) by norm_num [PdupCx]]
      rw [Int.ceil_eq_iff]
      constructor <;> norm_num
    have ht := traceOf_times PdupCx (by norm_num [PdupCx]) (by norm_num [PdupCx])
    rw [show stepsOf PdupCx = 1 by rw [stepsOf, hceil]; rfl] at ht
    rw [ht]
    intro hch
    have h01 := (List.chain'_cons.mp hch).1
    simp at h01
  · intro n
    exact (unit_invariant PdupCx rfl rfl rfl rfl n).2.2.2

/-- Witness for the amended claim C3 at dt = 1, dur = 10, at an input the
script runs to completion on (every divisor of line 106 is 1). -/
theorem claim3_witness :
    (List.Chain' (· ≤ ·) ((traceOf Prun).map Prod.fst)
      ∧ List.Chain' (· < ·) (((traceOf Prun).map Prod.fst).tail))
    ∧ ∀ n : ℕ, (loopN n Prun (initState Prun)).node_v = 1 :=
  ⟨claim3_amended Prun (by norm_num [Prun]),
   fun n => (unit_invariant Prun rfl rfl rfl rfl n).2.2.2⟩

end

end EnergySim
